import Mathlib

/-!
# Verification of the geometrize-lib core against its specification

Shallow embedding of the two source files of the repository:

* `src/geometrize/geometrize/model.cpp` — the `Model` (target/current bitmaps,
  last score, `drawShape`, `step`, `getHillClimbState`, `reset`).
* `src/unnamed/part_000` — `quadraticbezier.cpp`, the `QuadraticBezier` shape
  (random construction, `rasterize`, `mutate`, `getType`, `getRawShapeData`,
  `getSvgShapeData`).

Helpers that those two files call but whose code is not part of the sources
(`commonutil::randomRange`, `commonutil::clamp`, `commonutil::bresenham`,
`Scanline::trim`, `core::differenceFull`, `core::differencePartial`,
`core::computeColor`, `core::drawLines`) are modelled from the specification;
each such definition carries a doc comment starting with `Modelled from the
spec:`.

Machine integers (`std::int32_t`) are modelled as `ℤ`; the floating-point
score is modelled as exact real arithmetic (`ℝ`), with the squared-error
accumulator kept in `ℤ` so that everything up to the final square root is
executable.  `sq_lastScore`-style bookkeeping is justified by the lemma
`Model.drawShape_lastScore_eq_differencePartial` below, which shows the stored
score coincides with the spec's `differencePartial` formula.
-/

namespace Geometrize

/-- RGBA color, four 8-bit channels (`geometrize::rgba`).  Channel values are
modelled as unbounded integers; all code paths store channel values produced
by `clamp`/rounding into `[0, 255]`. -/
structure Rgba where
  r : ℤ
  g : ℤ
  b : ℤ
  a : ℤ
deriving DecidableEq, Repr

/-- A horizontal run of pixels `(y, x1..x2)` with inclusive endpoints
(`geometrize::Scanline`). -/
structure Scanline where
  y : ℤ
  x1 : ℤ
  x2 : ℤ
deriving DecidableEq, Repr

/-- Raster container (`geometrize::Bitmap`): dimensions plus the pixel at
each coordinate.  Pixels are addressed as `pixel x y`. -/
structure Bitmap where
  width : ℕ
  height : ℕ
  pixel : ℤ → ℤ → Rgba

/-- A bitmap of the given size in which every pixel holds `c`
(`Bitmap(w, h, color)` constructor / `Bitmap::fill`). -/
def Bitmap.fill (w h : ℕ) (c : Rgba) : Bitmap :=
  ⟨w, h, fun _ _ => c⟩

/-- Modelled from the spec: `commonutil::clamp(value, lo, hi)` — clamp an
integer into the closed range `[lo, hi]` (source of `clamp` is not under
`src/`). -/
def clamp (v lo hi : ℤ) : ℤ :=
  max lo (min v hi)

/-- Modelled from the spec: the process-wide uniform RNG.  A draw stream is an
explicit list of raw non-negative draws; `randomRange lo hi` reduces the next
raw draw into the closed range `[lo, hi]` (uniform when the raw draws are) and
returns the rest of the stream.  The spec requires `randomRange(lo, hi)` to be
uniform on the closed range. -/
def randomRange (lo hi : ℤ) (s : List ℕ) : ℤ × List ℕ :=
  (lo + (s.headD 0 : ℤ) % (hi - lo + 1), s.tail)

/-- The minor-axis offset after `k` major-axis steps of a Bresenham walk with
minor extent `d` and major extent `n`: the nearest integer to `k·d/n`
(ties rounded up). -/
def bresMinor (k d n : ℕ) : ℕ :=
  (2 * k * d + n) / (2 * n)

/-- Modelled from the spec: `commonutil::bresenham(x1, y1, x2, y2)` (source
not under `src/`; the spec says "Bresenham between endpoints").  The standard
Bresenham segment: step along the major axis one pixel at a time; the minor
coordinate is the nearest integer on the ideal line.  Both endpoints are
included. -/
def bresenham (x1 y1 x2 y2 : ℤ) : List (ℤ × ℤ) :=
  if (y2 - y1).natAbs ≤ (x2 - x1).natAbs then
    (List.range ((x2 - x1).natAbs + 1)).map (fun (k : ℕ) =>
      (x1 + (k : ℤ) * (x2 - x1).sign,
       y1 + (bresMinor k (y2 - y1).natAbs (x2 - x1).natAbs : ℤ) * (y2 - y1).sign))
  else
    (List.range ((y2 - y1).natAbs + 1)).map (fun (k : ℕ) =>
      (x1 + (bresMinor k (x2 - x1).natAbs (y2 - y1).natAbs : ℤ) * (x2 - x1).sign,
       y1 + (k : ℤ) * (y2 - y1).sign))

/-- Modelled from the spec: `Scanline::trim(lines, w, h)` (source not under
`src/`) — "a trimming routine that clips a set of runs to a bitmap rectangle
and discards empty ones"; afterwards every `(y, x1, x2)` satisfies
`0 ≤ y < h` and `0 ≤ x1 ≤ x2 < w`. -/
def Scanline.trim (lines : List Scanline) (w h : ℤ) : List Scanline :=
  lines.filterMap (fun L =>
    if L.y < 0 ∨ h ≤ L.y then none
    else
      let a := max L.x1 0
      let b := min L.x2 (w - 1)
      if b < a then none else some ⟨L.y, a, b⟩)

/-- The pixels covered by one scanline, left to right. -/
def Scanline.pixels (L : Scanline) : List (ℤ × ℤ) :=
  (List.range (L.x2 - L.x1 + 1).toNat).map (fun (k : ℕ) => (L.x1 + (k : ℤ), L.y))

/-- All pixels covered by a list of scanlines, in iteration order and with
multiplicity (a pixel covered by several scanlines appears several times). -/
def coveredPixels (lines : List Scanline) : List (ℤ × ℤ) :=
  lines.flatMap Scanline.pixels

/-- The closed enumeration of shape kinds (`geometrize::shapes::ShapeTypes`). -/
inductive ShapeType where
  | rectangle
  | rotatedRectangle
  | triangle
  | ellipse
  | rotatedEllipse
  | circle
  | line
  | quadraticBezier
  | polyline
deriving DecidableEq, Repr

/-- The `geometrize::QuadraticBezier` shape: the bounds of the model it is
coupled to (`m_model.getWidth()/getHeight()`), and its stored control points
(`m_controlPoints`). -/
structure QuadraticBezier where
  xBound : ℤ
  yBound : ℤ
  controlPoints : List (ℤ × ℤ)
deriving DecidableEq, Repr

/-- The starting point drawn first during random construction
(`quadraticbezier.cpp` line 19): note the x draw is
`randomRange(0, xBound)` — closed upper end `xBound` — while the y draw is
`randomRange(0, yBound - 1)`. -/
def primaryPoint (w h : ℤ) (s : List ℕ) : (ℤ × ℤ) × List ℕ :=
  let x := randomRange 0 w s
  let y := randomRange 0 (h - 1) x.2
  ((x.1, y.1), y.2)

/-- One loop iteration of the `QuadraticBezier` constructor: jitter the
starting point by `±32` in each coordinate and clamp into
`[0, w-1] × [0, h-1]`. -/
def jitterPoint (w h sx sy : ℤ) (s : List ℕ) : (ℤ × ℤ) × List ℕ :=
  let dx := randomRange (-32) 32 s
  let dy := randomRange (-32) 32 dx.2
  ((clamp (sx + dx.1) 0 (w - 1), clamp (sy + dy.1) 0 (h - 1)), dy.2)

/-- `QuadraticBezier::QuadraticBezier(model)`: draw a starting point, then
push four jittered, clamped control points (the `for(i = 0; i < 4; i++)`
loop, unrolled). -/
def mkQuadraticBezier (w h : ℤ) (s : List ℕ) : QuadraticBezier × List ℕ :=
  let st := primaryPoint w h s
  let p1 := jitterPoint w h st.1.1 st.1.2 st.2
  let p2 := jitterPoint w h st.1.1 st.1.2 p1.2
  let p3 := jitterPoint w h st.1.1 st.1.2 p2.2
  let p4 := jitterPoint w h st.1.1 st.1.2 p3.2
  (⟨w, h, [p1.1, p2.1, p3.1, p4.1]⟩, p4.2)

/-- The endpoint pairs of the segments drawn by `QuadraticBezier::rasterize`:
for index `i` the code draws from `m_controlPoints[i]` to
`m_controlPoints[i+1]` when `i < size-1` and from `m_controlPoints[i]` to
itself at the last index.  Written as structural recursion: for points
`p0 … p(n-1)` this yields `(p0,p1), (p1,p2), …, (p(n-2),p(n-1)),
(p(n-1),p(n-1))`, exactly the loop's iterations. -/
def segmentEndpoints : List (ℤ × ℤ) → List ((ℤ × ℤ) × (ℤ × ℤ))
  | [] => []
  | [p] => [(p, p)]
  | p :: q :: rest => (p, q) :: segmentEndpoints (q :: rest)

/-- `QuadraticBezier::rasterize`: one single-pixel scanline
`Scanline(point.y, point.x, point.x)` per Bresenham point of each segment,
then `Scanline::trim` against the model bounds. -/
def QuadraticBezier.rasterize (q : QuadraticBezier) : List Scanline :=
  Scanline.trim
    ((segmentEndpoints q.controlPoints).flatMap (fun sg =>
      (bresenham sg.1.1 sg.1.2 sg.2.1 sg.2.2).map (fun pt => ⟨pt.2, pt.1, pt.1⟩)))
    q.xBound q.yBound

/-- The control-point index chosen by `QuadraticBezier::mutate`:
`randomRange(0, m_controlPoints.size() - 1)`. -/
def QuadraticBezier.mutateIndex (q : QuadraticBezier) (s : List ℕ) : ℕ :=
  ((randomRange 0 ((q.controlPoints.length : ℤ) - 1) s).1).toNat

/-- `QuadraticBezier::mutate`: pick one control point index uniformly, jitter
that point by `±64` in each coordinate, clamp into
`[0, xBound-1] × [0, yBound-1]`, and store it back. -/
def QuadraticBezier.mutate (q : QuadraticBezier) (s : List ℕ) :
    QuadraticBezier × List ℕ :=
  let i := q.mutateIndex s
  let s1 := s.tail
  let p := q.controlPoints.getD i (0, 0)
  let dx := randomRange (-64) 64 s1
  let dy := randomRange (-64) 64 dx.2
  (⟨q.xBound, q.yBound,
    q.controlPoints.set i
      (clamp (p.1 + dx.1) 0 (q.xBound - 1), clamp (p.2 + dy.1) 0 (q.yBound - 1))⟩,
   dy.2)

/-- A sequence of mutations, each consuming its own draw stream. -/
def mutateSeq (q : QuadraticBezier) : List (List ℕ) → QuadraticBezier
  | [] => q
  | s :: rest => mutateSeq (q.mutate s).1 rest

/-- `QuadraticBezier::getType`. -/
def QuadraticBezier.getType (_ : QuadraticBezier) : ShapeType :=
  ShapeType.quadraticBezier

/-- `QuadraticBezier::getRawShapeData`: the x and y of each stored control
point, in order. -/
def QuadraticBezier.getRawShapeData (q : QuadraticBezier) : List ℤ :=
  q.controlPoints.flatMap (fun p => [p.1, p.2])

/-- Modelled from the spec: the literal placeholder token `SVG_STYLE_HOOK`
(defined outside `src/`; the spec calls it "a single placeholder string"). -/
def SVG_STYLE_HOOK : String :=
  "SVG_STYLE_HOOK"

/-- `QuadraticBezier::getSvgShapeData`: the stream inserts are
`"<path d=\""`, then the commented-out point loop (which emits nothing), then
`"\" "`, `SVG_STYLE_HOOK`, `" "`, `"/>"`. -/
def QuadraticBezier.getSvgShapeData (_ : QuadraticBezier) : String :=
  "<path d=" ++ "\"" ++ "\"" ++ " " ++ SVG_STYLE_HOOK ++ " " ++ "/>"

/-- Squared per-channel difference of two colors (one pixel's contribution to
the difference accumulator). -/
def chanSq (p q : Rgba) : ℤ :=
  (p.r - q.r) ^ 2 + (p.g - q.g) ^ 2 + (p.b - q.b) ^ 2 + (p.a - q.a) ^ 2

/-- The pixel rectangle of a bitmap as a finite set of coordinates. -/
def Bitmap.grid (b : Bitmap) : Finset (ℤ × ℤ) :=
  Finset.Ico (0 : ℤ) (b.width : ℤ) ×ˢ Finset.Ico (0 : ℤ) (b.height : ℤ)

/-- The squared-error accumulator of the spec's scoring model:
`Σ over all pixels, all 4 channels, of (tᵢ − cᵢ)²` (the sum inside
`differenceFull`).  The iteration domain is the first bitmap's rectangle. -/
def sumSq (t c : Bitmap) : ℤ :=
  ∑ p ∈ t.grid, chanSq (t.pixel p.1 p.2) (c.pixel p.1 p.2)

/-- `w · h · 4`, the pixel-channel count that normalizes the score. -/
def sizeN (b : Bitmap) : ℤ :=
  4 * (b.width : ℤ) * (b.height : ℤ)

/-- Turn a squared-error accumulator into the normalized score
`sqrt(sq / n) / 255` of the spec. -/
noncomputable def scoreOfSq (sq n : ℤ) : ℝ :=
  Real.sqrt ((sq : ℝ) / (n : ℝ)) / 255

/-- Modelled from the spec: `core::differenceFull(target, current)` (source
not under `src/`): root-mean-square normalized per-channel error
`sqrt(sum / (w·h·4)) / 255`. -/
noncomputable def differenceFull (t c : Bitmap) : ℝ :=
  scoreOfSq (sumSq t c) (sizeN t)

/-- The signed change of the squared-error accumulator contributed by the
pixels covered by `lines` (with multiplicity), when the canvas goes from
`before` to `after`: the loop body of the spec's `differencePartial`. -/
def deltaSq (t before after : Bitmap) (lines : List Scanline) : ℤ :=
  ((coveredPixels lines).map (fun p =>
    chanSq (t.pixel p.1 p.2) (after.pixel p.1 p.2)
      - chanSq (t.pixel p.1 p.2) (before.pixel p.1 p.2))).sum

/-- Modelled from the spec: `core::differencePartial(target, before, after,
lastScore, lines)` (source not under `src/`):
`total_sq = (lastScore·255)²·(w·h·4)`, adjusted per covered pixel, then
`sqrt(max(0, total_sq) / (w·h·4)) / 255`. -/
noncomputable def differencePartial (t before after : Bitmap) (lastScore : ℝ)
    (lines : List Scanline) : ℝ :=
  Real.sqrt (max 0 ((lastScore * 255) ^ 2 * (sizeN t : ℝ)
    + (deltaSq t before after lines : ℝ)) / (sizeN t : ℝ)) / 255

/-- Round-half-up of the ratio `a / b` for `b > 0`, in exact integer
arithmetic: `round(a/b) = ⌊(a/b) + 1/2⌋ = ⌊(2a + b) / (2b)⌋`, and integer
division by a positive divisor is floor division.  The lemma
`roundDiv_eq_round` below proves agreement with `round` on `ℚ`. -/
def roundDiv (a b : ℤ) : ℤ :=
  (2 * a + b) / (2 * b)

/-- One channel of the optimal color solver: the spec's weighted average
`(Σ over covered pixels of (Tₚ − Cₚ)·255/α + Cₚ) / count`, written over the
common denominator `α · count` so the rounding is exact integer arithmetic,
then rounded and clamped into `[0, 255]`.  `solveChannel_eq_round` below
proves this equals `clamp (round (spec average)) 0 255`. -/
def solveChannel (t c : Bitmap) (ps : List (ℤ × ℤ)) (alpha : ℤ)
    (ch : Rgba → ℤ) : ℤ :=
  clamp (roundDiv ((ps.map (fun p =>
      (ch (t.pixel p.1 p.2) - ch (c.pixel p.1 p.2)) * 255
        + ch (c.pixel p.1 p.2) * alpha)).sum) (alpha * ps.length)) 0 255

/-- Modelled from the spec: `core::computeColor(target, current, lines, α)`
(source not under `src/`).  For each of R, G, B independently, average
`(Tₚ − Cₚ)·255/α + Cₚ` over the covered pixels (with multiplicity, as the
code iterates the scanlines) and clamp the rounded average into `[0, 255]`;
the alpha channel of the result is `α`.  Zero covered pixels give
`(0,0,0,α)`; `α = 0` gives `(0,0,0,0)`. -/
def computeColor (t c : Bitmap) (lines : List Scanline) (alpha : ℤ) : Rgba :=
  let ps := coveredPixels lines
  if ps = [] then ⟨0, 0, 0, alpha⟩
  else if alpha = 0 then ⟨0, 0, 0, 0⟩
  else
    ⟨solveChannel t c ps alpha (fun x => x.r),
     solveChannel t c ps alpha (fun x => x.g),
     solveChannel t c ps alpha (fun x => x.b), alpha⟩

/-- Modelled from the spec: straight-alpha src-over blend of `color` into one
pixel, with rounding (`core::drawLines` body; source not under `src/`).  The
spec's `round(p·(1−a/255) + c·(a/255))` and `round(p + c·(1−p/255))` are
written over the common denominator `255`; `blendPixel_eq_round` below proves
agreement with the rational formulas. -/
def blendPixel (p color : Rgba) : Rgba :=
  ⟨roundDiv (p.r * (255 - color.a) + color.r * color.a) 255,
   roundDiv (p.g * (255 - color.a) + color.g * color.a) 255,
   roundDiv (p.b * (255 - color.a) + color.b * color.a) 255,
   roundDiv (p.a * 255 + color.a * (255 - p.a)) 255⟩

/-- Blend `color` into every pixel of one scanline. -/
def drawScanline (bmp : Bitmap) (color : Rgba) (L : Scanline) : Bitmap :=
  { bmp with pixel := fun x y =>
      if y = L.y ∧ L.x1 ≤ x ∧ x ≤ L.x2 then blendPixel (bmp.pixel x y) color
      else bmp.pixel x y }

/-- Modelled from the spec: `core::drawLines(canvas, color, lines)` (source
not under `src/`): composite `color` into the canvas over every scanline, in
order (a pixel covered by several scanlines is blended several times). -/
def drawLines (bmp : Bitmap) (color : Rgba) (lines : List Scanline) : Bitmap :=
  lines.foldl (fun b L => drawScanline b color L) bmp

/-- The shape interface as `Model` consumes it (`shape->rasterize()` is the
only member `model.cpp` calls on a shape): a shape is its rasterization. -/
structure Shape where
  rasterize : List Scanline

/-- Package a `QuadraticBezier` behind the abstract shape interface. -/
def QuadraticBezier.toShape (q : QuadraticBezier) : Shape :=
  ⟨q.rasterize⟩

/-- `geometrize::ShapeResult` — `(score, color, shape)`.  The C++ record
stores the score as a float; here the score is represented by the exact
squared-error accumulator `scoreSq` together with the pixel-channel count
`n`, and `ShapeResult.score` recovers the spec's scalar
`sqrt(scoreSq/n)/255` (see `Model.drawShape_lastScore_eq_differencePartial`
for the justification). -/
structure ShapeResult where
  n : ℤ
  scoreSq : ℤ
  color : Rgba
  shape : Shape

/-- The real-valued score of a result, `sqrt(scoreSq/n)/255`. -/
noncomputable def ShapeResult.score (r : ShapeResult) : ℝ :=
  scoreOfSq r.scoreSq r.n

/-- `geometrize::State` — the record a hill-climb worker returns: a score, the
alpha it searched with, and the candidate shape.  `Model::step` reads only
`m_score` (for `std::min_element`) and `m_shape`. -/
structure State where
  score : ℚ
  alpha : ℤ
  shape : Shape

/-- `Model::ModelImpl` — target bitmap, current canvas, and the last score.
The float `m_lastScore` is represented by the exact squared-error accumulator
`lastSq`; the scalar the C++ stores is `Model.lastScore` below. -/
structure Model where
  target : Bitmap
  current : Bitmap
  lastSq : ℤ

/-- The last score as the C++ float field holds it: `sqrt(lastSq/(w·h·4))/255`. -/
noncomputable def Model.lastScore (m : Model) : ℝ :=
  scoreOfSq m.lastSq (sizeN m.target)

/-- `Model::Model(target, backgroundColor)`: the canvas is filled with the
background color and the last score initialized with `differenceFull`. -/
def mkModel (target : Bitmap) (backgroundColor : Rgba) : Model :=
  let cur := Bitmap.fill target.width target.height backgroundColor
  ⟨target, cur, sumSq target cur⟩

/-- `Model::Model(target, initial)`: the canvas starts as a given bitmap and
the last score is initialized with `differenceFull`. -/
def mkModelInitial (target initial : Bitmap) : Model :=
  ⟨target, initial, sumSq target initial⟩

/-- `Model::reset(backgroundColor)`: refill the canvas and recompute the last
score with `differenceFull`. -/
def Model.reset (m : Model) (backgroundColor : Rgba) : Model :=
  let cur := Bitmap.fill m.current.width m.current.height backgroundColor
  ⟨m.target, cur, sumSq m.target cur⟩

/-- `ModelImpl::drawShape(shape, alpha)`: rasterize, solve the color, blit
into the canvas, update the last score via `differencePartial`, and return
the `ShapeResult` along with the updated model.  `max 0 (…)` is the
`max(0, total_sq)` clamp of the spec's `differencePartial`. -/
def Model.drawShape (m : Model) (sh : Shape) (alpha : ℤ) :
    ShapeResult × Model :=
  let lines := sh.rasterize
  let color := computeColor m.target m.current lines alpha
  let cur2 := drawLines m.current color lines
  let sq2 := max 0 (m.lastSq + deltaSq m.target m.current cur2 lines)
  (⟨sizeN m.target, sq2, color, sh⟩, ⟨m.target, cur2, sq2⟩)

/-- `std::min_element(states.begin(), states.end(), a.score < b.score)`:
fold keeping the current best, replacing it only on strict improvement —
hence the first of several minimum-score states wins. -/
def minElement (s : State) (rest : List State) : State :=
  rest.foldl (fun best x => if x.score < best.score then x else best) s

/-- `ModelImpl::getHillClimbState`: spawn `max(1, hardware_concurrency)`
futures and collect their states in order.  The hardware concurrency `hw` and
the state each worker returns (`core::bestHillClimbState` is not under
`src/`) are parameters. -/
def getHillClimbState (hw : ℕ) (worker : ℕ → State) : List State :=
  (List.range (max 1 hw)).map worker

/-- The body of `ModelImpl::step` after the states are collected: select the
minimum-score state with `std::min_element` and apply its shape via
`drawShape`; the result vector holds exactly that one `ShapeResult`.  (The
empty branch is unreachable: `step` always passes a non-empty list, see the
claim on worker counts.) -/
def Model.stepOnStates (m : Model) (states : List State) (alpha : ℤ) :
    List ShapeResult × Model :=
  match states with
  | [] => ([], m)
  | s :: rest =>
    let best := minElement s rest
    let rm := m.drawShape best.shape alpha
    ([rm.1], rm.2)

/-- `ModelImpl::step`: collect the worker states, then select and apply. -/
def Model.step (m : Model) (hw : ℕ) (worker : ℕ → State) (alpha : ℤ) :
    List ShapeResult × Model :=
  m.stepOnStates (getHillClimbState hw worker) alpha

/-- The pixel set named by the spec sentence the rasterization claim cites:
Bresenham between successive control points (the shape's control polygon). -/
def controlPolygonPixels (pts : List (ℤ × ℤ)) : List (ℤ × ℤ) :=
  (pts.zip pts.tail).flatMap (fun sg => bresenham sg.1.1 sg.1.2 sg.2.1 sg.2.2)

/-- Placeholder state used as the `getD` default in index statements. -/
def dfltState : State :=
  ⟨0, 0, ⟨[]⟩⟩

/-- Placeholder result used as the `headD` default in result statements. -/
def dfltResult : ShapeResult :=
  ⟨0, 0, ⟨0, 0, 0, 0⟩, ⟨[]⟩⟩

/-- Membership of a point in the clamping box `[0, w-1] × [0, h-1]`. -/
def inBox (w h : ℤ) (p : ℤ × ℤ) : Prop :=
  0 ≤ p.1 ∧ p.1 ≤ w - 1 ∧ 0 ≤ p.2 ∧ p.2 ≤ h - 1

instance (w h : ℤ) (p : ℤ × ℤ) : Decidable (inBox w h p) := by
  unfold inBox
  infer_instance

/-! ## Concrete instances used in counterexamples and witnesses -/

/-- 1×1 all-white bitmap. -/
def cexTarget1 : Bitmap :=
  Bitmap.fill 1 1 ⟨255, 255, 255, 255⟩

/-- 1×1 model: white target over a black canvas. -/
def cexModel1 : Model :=
  mkModel cexTarget1 ⟨0, 0, 0, 255⟩

/-- A `QuadraticBezier` constructed over a 1×1 model: all four control points
are clamped to `(0, 0)`, so its rasterization is the same single-pixel
scanline four times. -/
def cexBezier1 : QuadraticBezier :=
  (mkQuadraticBezier 1 1 []).1

/-- The 1×1 model after drawing that bezier at `alpha = 128`. -/
def cexModel1' : Model :=
  (cexModel1.drawShape cexBezier1.toShape 128).2

/-- 2×1 bitmap: black-opaque pixel then white pixel. -/
def cexTarget2 : Bitmap :=
  ⟨2, 1, fun x _ => if x = 0 then ⟨0, 0, 0, 255⟩ else ⟨255, 255, 255, 255⟩⟩

/-- 2×1 model whose canvas already equals the target (last score zero). -/
def cexModel2 : Model :=
  mkModelInitial cexTarget2 cexTarget2

/-- A `QuadraticBezier` constructed over the 2×1 model with draws chosen so
its control points are `(0,0), (1,0), (1,0), (1,0)`: it covers both pixels. -/
def cexBezier2 : QuadraticBezier :=
  (mkQuadraticBezier 2 1 [0, 0, 32, 0, 33, 0, 33, 0, 33, 0]).1

/-- A worker state carrying that bezier. -/
def cexState2 : State :=
  ⟨0, 255, cexBezier2.toShape⟩

/-- 1×1 model with white target and black canvas, built from an explicit
initial bitmap. -/
def witModel : Model :=
  mkModelInitial cexTarget1 (Bitmap.fill 1 1 ⟨0, 0, 0, 255⟩)

/-- A shape whose rasterization is one single-pixel scanline (duplicate-free
coverage of the 1×1 canvas). -/
def witShape : Shape :=
  ⟨[⟨0, 0, 0⟩]⟩

/-- A worker state carrying that shape. -/
def witState : State :=
  ⟨0, 255, witShape⟩

/-! ## Scanline and trimming lemmas -/

theorem Scanline.mem_pixels {L : Scanline} {p : ℤ × ℤ} :
    p ∈ L.pixels ↔ L.x1 ≤ p.1 ∧ p.1 ≤ L.x2 ∧ p.2 = L.y := by
  obtain ⟨a, b⟩ := p
  unfold Scanline.pixels
  simp only [List.mem_map, List.mem_range, Prod.mk.injEq]
  constructor
  · rintro ⟨k, hk, hx, hy⟩
    omega
  · rintro ⟨h1, h2, h3⟩
    exact ⟨(a - L.x1).toNat, by omega, by omega, h3.symm⟩

theorem Scanline.pixels_single (x y : ℤ) :
    Scanline.pixels ⟨y, x, x⟩ = [(x, y)] := by
  unfold Scanline.pixels
  have h1 : ((⟨y, x, x⟩ : Scanline).x2 - (⟨y, x, x⟩ : Scanline).x1 + 1).toNat = 1 := by
    simp only
    omega
  rw [h1]
  simp [List.range_succ]

theorem mem_coveredPixels {lines : List Scanline} {p : ℤ × ℤ} :
    p ∈ coveredPixels lines ↔ ∃ L ∈ lines, p ∈ L.pixels := by
  simp [coveredPixels]

theorem Scanline.mem_trim {lines : List Scanline} {w h : ℤ} {L' : Scanline} :
    L' ∈ Scanline.trim lines w h ↔
      ∃ L ∈ lines, ¬(L.y < 0 ∨ h ≤ L.y) ∧ ¬(min L.x2 (w - 1) < max L.x1 0) ∧
        L' = ⟨L.y, max L.x1 0, min L.x2 (w - 1)⟩ := by
  unfold Scanline.trim
  simp only [List.mem_filterMap]
  constructor
  · rintro ⟨L, hL, hmk⟩
    by_cases hy : L.y < 0 ∨ h ≤ L.y
    · simp [hy] at hmk
    · by_cases hx : min L.x2 (w - 1) < max L.x1 0
      · simp [hy, hx] at hmk
      · simp only [hy, if_false, hx, if_neg, Option.some.injEq] at hmk
        exact ⟨L, hL, hy, hx, hmk.symm⟩
  · rintro ⟨L, hL, hy, hx, rfl⟩
    exact ⟨L, hL, by simp [hy, hx]⟩

theorem mem_coveredPixels_trim {lines : List Scanline} {w h : ℤ} {p : ℤ × ℤ} :
    p ∈ coveredPixels (Scanline.trim lines w h) ↔
      p ∈ coveredPixels lines ∧ 0 ≤ p.1 ∧ p.1 < w ∧ 0 ≤ p.2 ∧ p.2 < h := by
  rw [mem_coveredPixels]
  constructor
  · rintro ⟨L', hL', hp⟩
    rcases Scanline.mem_trim.1 hL' with ⟨L, hL, hy, hx, rfl⟩
    rcases Scanline.mem_pixels.1 hp with ⟨h1, h2, h3⟩
    refine ⟨mem_coveredPixels.2 ⟨L, hL, Scanline.mem_pixels.2 ⟨?_, ?_, ?_⟩⟩, ?_, ?_, ?_, ?_⟩ <;>
      simp only at h1 h2 h3 <;> omega
  · rintro ⟨hp, hx0, hxw, hy0, hyh⟩
    rcases mem_coveredPixels.1 hp with ⟨L, hL, hpL⟩
    rcases Scanline.mem_pixels.1 hpL with ⟨h1, h2, h3⟩
    refine ⟨⟨L.y, max L.x1 0, min L.x2 (w - 1)⟩,
      Scanline.mem_trim.2 ⟨L, hL, by omega, by omega, rfl⟩,
      Scanline.mem_pixels.2 ⟨by simp only; omega, by simp only; omega, h3⟩⟩

theorem Scanline.trim_bounds {lines : List Scanline} {w h : ℤ} {L' : Scanline}
    (hall : ∀ L ∈ lines, L.x1 = L.x2) (hL' : L' ∈ Scanline.trim lines w h) :
    L'.x1 = L'.x2 ∧ 0 ≤ L'.y ∧ L'.y < h ∧ 0 ≤ L'.x1 ∧ L'.x2 < w := by
  rcases Scanline.mem_trim.1 hL' with ⟨L, hL, hy, hx, rfl⟩
  have := hall L hL
  simp only
  omega

/-! ## Bresenham lemmas -/

theorem bresMinor_zero (d n : ℕ) : bresMinor 0 d n = 0 := by
  unfold bresMinor
  rcases Nat.eq_zero_or_pos n with h0 | h0
  · subst h0; simp
  · rw [show 2 * 0 * d + n = n by ring]
    exact Nat.div_eq_of_lt (by omega)

theorem bresMinor_last {d n : ℕ} (h : d ≤ n) : bresMinor n d n = n * d / n := by
  unfold bresMinor
  rcases Nat.eq_zero_or_pos n with h0 | h0
  · subst h0; simp
  · rw [show 2 * n * d + n = 2 * n * d + n from rfl, Nat.mul_add_div (by omega),
      Nat.div_eq_of_lt (by omega), Nat.mul_div_cancel_left _ h0]
    omega

theorem bresMinor_self {d n : ℕ} (h : d ≤ n) (h0 : 0 < n) : bresMinor n d n = d := by
  rw [bresMinor_last h, Nat.mul_div_cancel_left _ h0]

theorem natAbs_cast_mul_sign (a : ℤ) : (a.natAbs : ℤ) * a.sign = a := by
  rw [mul_comm, Int.sign_mul_natAbs]

theorem bresenham_self (x y : ℤ) : bresenham x y x y = [(x, y)] := by
  unfold bresenham
  simp [bresMinor]

theorem start_mem_bresenham (x1 y1 x2 y2 : ℤ) :
    (x1, y1) ∈ bresenham x1 y1 x2 y2 := by
  unfold bresenham
  rcases le_or_lt (y2 - y1).natAbs (x2 - x1).natAbs with h | h
  · rw [if_pos h]
    refine List.mem_map.2 ⟨0, List.mem_range.2 (Nat.succ_pos _), ?_⟩
    simp [bresMinor_zero]
  · rw [if_neg (not_le.2 h)]
    refine List.mem_map.2 ⟨0, List.mem_range.2 (Nat.succ_pos _), ?_⟩
    simp [bresMinor_zero]

theorem stop_mem_bresenham (x1 y1 x2 y2 : ℤ) :
    (x2, y2) ∈ bresenham x1 y1 x2 y2 := by
  unfold bresenham
  rcases le_or_lt (y2 - y1).natAbs (x2 - x1).natAbs with h | h
  · rw [if_pos h]
    refine List.mem_map.2 ⟨(x2 - x1).natAbs, List.mem_range.2 (by omega), ?_⟩
    rcases Nat.eq_zero_or_pos (x2 - x1).natAbs with h0 | h0
    · have hx : x2 = x1 := by omega
      have hy : y2 = y1 := by omega
      subst hx; subst hy
      simp [bresMinor]
    · rw [bresMinor_self h h0]
      simp only [Prod.mk.injEq, natAbs_cast_mul_sign]
      omega
  · rw [if_neg (not_le.2 h)]
    refine List.mem_map.2 ⟨(y2 - y1).natAbs, List.mem_range.2 (by omega), ?_⟩
    rw [bresMinor_self (le_of_lt h) (by omega)]
    simp only [Prod.mk.injEq, natAbs_cast_mul_sign]
    omega

/-! ## Segment-endpoint lemmas -/

theorem segmentEndpoints_cons_cons (p q : ℤ × ℤ) (rest : List (ℤ × ℤ)) :
    segmentEndpoints (p :: q :: rest) = (p, q) :: segmentEndpoints (q :: rest) :=
  rfl

/-- The pixels produced by the rasterization loop (which appends a degenerate
last segment from the final control point to itself) are the same as the
pixels of the Bresenham segments between successive control points: the
degenerate segment contributes only the final point, which the last proper
segment already contains. -/
theorem mem_segments_iff_mem_zip :
    ∀ (pts : List (ℤ × ℤ)), 2 ≤ pts.length → ∀ p : ℤ × ℤ,
      ((∃ sg ∈ segmentEndpoints pts, p ∈ bresenham sg.1.1 sg.1.2 sg.2.1 sg.2.2) ↔
        (∃ sg ∈ pts.zip pts.tail, p ∈ bresenham sg.1.1 sg.1.2 sg.2.1 sg.2.2))
  | [], h, _ => by simp at h
  | [_], h, _ => by simp at h
  | a :: b :: rest, _, p => by
    cases rest with
    | nil =>
      constructor
      · rintro ⟨sg, hsg, hp⟩
        simp only [segmentEndpoints, List.mem_cons, List.not_mem_nil, or_false] at hsg
        rcases hsg with rfl | rfl
        · exact ⟨(a, b), by simp, hp⟩
        · rw [bresenham_self] at hp
          simp only [List.mem_singleton] at hp
          subst hp
          exact ⟨(a, b), by simp, by
            obtain ⟨b1, b2⟩ := b
            exact stop_mem_bresenham a.1 a.2 b1 b2⟩
      · rintro ⟨sg, hsg, hp⟩
        simp only [List.zip_cons_cons, List.tail_cons, List.zip_nil_right,
          List.mem_singleton] at hsg
        subst hsg
        exact ⟨(a, b), by simp [segmentEndpoints], hp⟩
    | cons c rest2 =>
      have ih := mem_segments_iff_mem_zip (b :: c :: rest2) (by simp) p
      constructor
      · rintro ⟨sg, hsg, hp⟩
        rw [segmentEndpoints_cons_cons] at hsg
        rcases List.mem_cons.1 hsg with hEq | hsg2
        · subst hEq
          exact ⟨(a, b), by simp, hp⟩
        · rcases ih.1 ⟨sg, hsg2, hp⟩ with ⟨sg2, hsg3, hp2⟩
          refine ⟨sg2, ?_, hp2⟩
          simp only [List.zip_cons_cons, List.tail_cons] at hsg3 ⊢
          exact List.mem_cons_of_mem _ hsg3
      · rintro ⟨sg, hsg, hp⟩
        simp only [List.zip_cons_cons, List.tail_cons] at hsg
        rcases List.mem_cons.1 hsg with hEq | hsg2
        · subst hEq
          exact ⟨(a, b), by rw [segmentEndpoints_cons_cons]; exact List.mem_cons_self _ _, hp⟩
        · rcases ih.2 ⟨sg, by simpa using hsg2, hp⟩ with ⟨sg2, hsg3, hp2⟩
          exact ⟨sg2, by rw [segmentEndpoints_cons_cons]; exact List.mem_cons_of_mem _ hsg3, hp2⟩

/-! ## Rounding lemmas: the integer arithmetic matches the spec's formulas -/

theorem roundDiv_eq_round {a b : ℤ} (hb : 0 < b) :
    roundDiv a b = round ((a : ℚ) / (b : ℚ)) := by
  rw [round_eq]
  have h1 : (a : ℚ) / (b : ℚ) + 1 / 2 = ((2 * a + b : ℤ) : ℚ) / ((2 * b : ℤ) : ℚ) := by
    have hb0 : ((b : ℤ) : ℚ) ≠ 0 := by
      exact_mod_cast ne_of_gt hb
    push_cast
    field_simp
    ring
  rw [h1]
  have hd : (((2 * b).toNat : ℕ) : ℤ) = 2 * b := Int.toNat_of_nonneg (by omega)
  have h2 : ((2 * b : ℤ) : ℚ) = (((2 * b).toNat : ℕ) : ℚ) := by
    exact_mod_cast hd.symm
  rw [h2, Rat.floor_intCast_div_natCast, hd]
  rfl

theorem blendPixel_eq_round (p color : Rgba) :
    (blendPixel p color).r
        = round ((p.r : ℚ) * (1 - (color.a : ℚ) / 255)
            + (color.r : ℚ) * ((color.a : ℚ) / 255)) ∧
      (blendPixel p color).a
        = round ((p.a : ℚ) + (color.a : ℚ) * (1 - (p.a : ℚ) / 255)) := by
  constructor
  · rw [show (blendPixel p color).r
        = roundDiv (p.r * (255 - color.a) + color.r * color.a) 255 from rfl,
      roundDiv_eq_round (by norm_num)]
    congr 1
    push_cast
    field_simp
  · rw [show (blendPixel p color).a
        = roundDiv (p.a * 255 + color.a * (255 - p.a)) 255 from rfl,
      roundDiv_eq_round (by norm_num)]
    congr 1
    push_cast
    field_simp

theorem sum_terms_cast (t c : Bitmap) (ch : Rgba → ℤ) (alpha : ℤ)
    (ha : (alpha : ℚ) ≠ 0) :
    ∀ ps : List (ℤ × ℤ),
      ((ps.map (fun p => (ch (t.pixel p.1 p.2) - ch (c.pixel p.1 p.2)) * 255
          + ch (c.pixel p.1 p.2) * alpha)).sum : ℚ)
        = (alpha : ℚ) * (ps.map (fun p =>
            ((ch (t.pixel p.1 p.2) - ch (c.pixel p.1 p.2)) * 255 : ℚ) / (alpha : ℚ)
              + (ch (c.pixel p.1 p.2) : ℚ))).sum
  | [] => by simp
  | p :: rest => by
    rw [List.map_cons, List.map_cons, List.sum_cons, List.sum_cons]
    push_cast [sum_terms_cast t c ch alpha ha rest]
    field_simp
    ring

/-- The solver channel is exactly the spec's
`clamp(round(weighted_average), 0, 255)`. -/
theorem solveChannel_eq_round (t c : Bitmap) (ps : List (ℤ × ℤ)) (alpha : ℤ)
    (ch : Rgba → ℤ) (ha : 0 < alpha) (hne : ps ≠ []) :
    solveChannel t c ps alpha ch
      = clamp (round ((ps.map (fun p =>
          ((ch (t.pixel p.1 p.2) - ch (c.pixel p.1 p.2)) * 255 : ℚ) / (alpha : ℚ)
            + (ch (c.pixel p.1 p.2) : ℚ))).sum / (ps.length : ℚ))) 0 255 := by
  have hlen : 0 < ps.length := List.length_pos.2 hne
  have haq : ((alpha : ℤ) : ℚ) ≠ 0 := by
    exact_mod_cast ne_of_gt ha
  have hlq : ((ps.length : ℕ) : ℚ) ≠ 0 := by
    exact_mod_cast ne_of_gt hlen
  unfold solveChannel
  rw [roundDiv_eq_round (by positivity)]
  congr 2
  rw [sum_terms_cast t c ch alpha haq ps]
  push_cast
  field_simp
  ring

/-! ## Scoring lemmas -/

theorem chanSq_nonneg (p q : Rgba) : 0 ≤ chanSq p q := by
  unfold chanSq
  positivity

theorem sumSq_nonneg (t c : Bitmap) : 0 ≤ sumSq t c :=
  Finset.sum_nonneg fun p _ => chanSq_nonneg _ _

theorem scoreOfSq_nonneg (sq n : ℤ) : 0 ≤ scoreOfSq sq n :=
  div_nonneg (Real.sqrt_nonneg _) (by norm_num)

theorem scoreOfSq_zero (n : ℤ) : scoreOfSq 0 n = 0 := by
  unfold scoreOfSq
  simp

theorem scoreOfSq_mono {a b n : ℤ} (hab : a ≤ b) (hn : 0 ≤ n) :
    scoreOfSq a n ≤ scoreOfSq b n := by
  unfold scoreOfSq
  rcases eq_or_lt_of_le hn with h0 | h0
  · rw [← h0]
    simp
  · have hnr : (0 : ℝ) < ((n : ℤ) : ℝ) := by exact_mod_cast h0
    refine (div_le_div_right (by norm_num)).2 (Real.sqrt_le_sqrt ?_)
    exact (div_le_div_right hnr).2 (by exact_mod_cast hab)

theorem scoreOfSq_pos {a n : ℤ} (ha : 0 < a) (hn : 0 < n) : 0 < scoreOfSq a n := by
  unfold scoreOfSq
  refine div_pos ?_ (by norm_num)
  rw [Real.sqrt_pos]
  exact div_pos (by exact_mod_cast ha) (by exact_mod_cast hn)

/-! ## Blitter lemmas -/

theorem drawLines_width :
    ∀ (lines : List Scanline) (b : Bitmap) (c : Rgba),
      (drawLines b c lines).width = b.width
  | [], _, _ => rfl
  | _ :: rest, b, c => drawLines_width rest _ c

theorem drawLines_height :
    ∀ (lines : List Scanline) (b : Bitmap) (c : Rgba),
      (drawLines b c lines).height = b.height
  | [], _, _ => rfl
  | _ :: rest, b, c => drawLines_height rest _ c

theorem drawScanline_pixel (b : Bitmap) (c : Rgba) (L : Scanline) (x y : ℤ) :
    (drawScanline b c L).pixel x y =
      if (x, y) ∈ L.pixels then blendPixel (b.pixel x y) c else b.pixel x y := by
  unfold drawScanline
  simp only
  by_cases h : (x, y) ∈ L.pixels
  · rcases Scanline.mem_pixels.1 h with ⟨h1, h2, h3⟩
    rw [if_pos ⟨h3, h1, h2⟩, if_pos h]
  · rw [if_neg, if_neg h]
    intro hc
    exact h (Scanline.mem_pixels.2 ⟨hc.2.1, hc.2.2, hc.1⟩)

theorem drawLines_pixel :
    ∀ (lines : List Scanline) (b : Bitmap) (c : Rgba) (x y : ℤ),
      (coveredPixels lines).Nodup →
      (drawLines b c lines).pixel x y =
        if (x, y) ∈ coveredPixels lines then blendPixel (b.pixel x y) c
        else b.pixel x y
  | [], b, c, x, y, _ => by simp [drawLines, coveredPixels]
  | L :: rest, b, c, x, y, hnd => by
    have hcov : coveredPixels (L :: rest) = L.pixels ++ coveredPixels rest := rfl
    rw [hcov] at hnd
    rcases List.nodup_append.1 hnd with ⟨hnd1, hnd2, hdisj⟩
    have hstep : drawLines b c (L :: rest) = drawLines (drawScanline b c L) c rest := rfl
    rw [hstep, drawLines_pixel rest _ c x y hnd2, drawScanline_pixel, hcov]
    by_cases h1 : (x, y) ∈ L.pixels <;> by_cases h2 : (x, y) ∈ coveredPixels rest
    · exact absurd h2 (hdisj h1)
    · simp [h1, h2, List.mem_append]
    · simp [h1, h2, List.mem_append]
    · simp [h1, h2, List.mem_append]

/-- The heart of the score-consistency claim: when the covered pixels are
pairwise distinct, lie inside the bitmap rectangle, and are the only pixels
at which `after` differs from `before`, the incremental accumulator update
reconstructs the full squared error. -/
theorem sumSq_update (t before after : Bitmap) (lines : List Scanline)
    (hnd : (coveredPixels lines).Nodup)
    (hsub : ∀ p ∈ coveredPixels lines, p ∈ t.grid)
    (hagree : ∀ p : ℤ × ℤ, p ∉ coveredPixels lines →
      after.pixel p.1 p.2 = before.pixel p.1 p.2) :
    sumSq t after = sumSq t before + deltaSq t before after lines := by
  classical
  set f : ℤ × ℤ → ℤ := fun p =>
    chanSq (t.pixel p.1 p.2) (after.pixel p.1 p.2)
      - chanSq (t.pixel p.1 p.2) (before.pixel p.1 p.2) with hf
  have hlist : deltaSq t before after lines = ((coveredPixels lines).map f).sum := rfl
  have htofin : (coveredPixels lines).toFinset.sum f = ((coveredPixels lines).map f).sum :=
    List.sum_toFinset f hnd
  have hsubset : (coveredPixels lines).toFinset ⊆ t.grid := by
    intro p hp
    exact hsub p (List.mem_toFinset.1 hp)
  have hzero : ∀ p ∈ t.grid, p ∉ (coveredPixels lines).toFinset → f p = 0 := by
    intro p hp hnp
    have hag := hagree p (fun hmem => hnp (List.mem_toFinset.2 hmem))
    rw [hf]
    simp only [hag, sub_self]
  have hext : (coveredPixels lines).toFinset.sum f = t.grid.sum f :=
    Finset.sum_subset hsubset hzero
  have hsplit : t.grid.sum f = sumSq t after - sumSq t before := by
    rw [hf]
    unfold sumSq
    rw [Finset.sum_sub_distrib]
  rw [hlist, ← htofin, hext, hsplit]
  ring

/-! ## `std::min_element` lemmas -/

theorem minElement_cons (s x : State) (rest : List State) :
    minElement s (x :: rest) = minElement (if x.score < s.score then x else s) rest :=
  rfl

theorem minElement_mem : ∀ (rest : List State) (s : State),
    minElement s rest ∈ s :: rest
  | [], s => by simp [minElement]
  | x :: rest, s => by
    rw [minElement_cons]
    have h := minElement_mem rest (if x.score < s.score then x else s)
    rcases List.mem_cons.1 h with hEq | hmem
    · rw [hEq]
      by_cases hx : x.score < s.score
      · simp [hx]
      · simp [hx]
    · exact List.mem_cons_of_mem _ (List.mem_cons_of_mem _ hmem)

theorem minElement_le : ∀ (rest : List State) (s : State),
    ∀ z ∈ s :: rest, (minElement s rest).score ≤ z.score
  | [], s => by
    intro z hz
    rcases List.mem_cons.1 hz with hEq | hmem
    · subst hEq; exact le_refl _
    · simp at hmem
  | x :: rest, s => by
    intro z hz
    rw [minElement_cons]
    set b := if x.score < s.score then x else s with hb
    have hbs : b.score ≤ s.score ∧ b.score ≤ x.score := by
      by_cases hx : x.score < s.score
      · rw [hb, if_pos hx]
        exact ⟨le_of_lt hx, le_refl _⟩
      · rw [hb, if_neg hx]
        exact ⟨le_refl _, not_lt.1 hx⟩
    have hbb : (minElement b rest).score ≤ b.score :=
      minElement_le rest b b (List.mem_cons_self _ _)
    rcases List.mem_cons.1 hz with hEq | hz2
    · subst hEq
      exact le_trans hbb hbs.1
    rcases List.mem_cons.1 hz2 with hEq | hz3
    · subst hEq
      exact le_trans hbb hbs.2
    · exact minElement_le rest b z (List.mem_cons_of_mem _ hz3)

theorem minElement_first : ∀ (rest : List State) (s : State),
    ∃ i : ℕ, i < (s :: rest).length ∧
      (s :: rest).getD i dfltState = minElement s rest ∧
      ∀ z ∈ (s :: rest).take i, (minElement s rest).score < z.score
  | [], s => ⟨0, by simp, rfl, by simp⟩
  | x :: rest, s => by
    rw [minElement_cons]
    by_cases hx : x.score < s.score
    · rw [if_pos hx]
      rcases minElement_first rest x with ⟨i, hi, hget, htake⟩
      refine ⟨i + 1, by simpa using Nat.succ_lt_succ hi, by simpa using hget, ?_⟩
      intro z hz
      rw [List.take_succ_cons] at hz
      rcases List.mem_cons.1 hz with hEq | hz2
      · subst hEq
        calc (minElement x rest).score
            ≤ x.score := minElement_le rest x x (List.mem_cons_self _ _)
          _ < z.score := hx
      · exact htake z hz2
    · rw [if_neg hx]
      rcases minElement_first rest s with ⟨i, hi, hget, htake⟩
      cases i with
      | zero =>
        refine ⟨0, by simp, ?_, by simp⟩
        simpa using hget
      | succ j =>
        refine ⟨j + 2, ?_, ?_, ?_⟩
        · simp only [List.length_cons] at hi ⊢
          omega
        · simpa using hget
        · intro z hz
          have hs_mem : s ∈ (s :: rest).take (j + 1) := by
            rw [List.take_succ_cons]
            exact List.mem_cons_self _ _
          have hlt_s : (minElement s rest).score < s.score := htake s hs_mem
          rw [List.take_succ_cons, List.take_succ_cons] at hz
          rcases List.mem_cons.1 hz with hEq | hz2
          · subst hEq; exact hlt_s
          rcases List.mem_cons.1 hz2 with hEq | hz3
          · subst hEq
            exact lt_of_lt_of_le hlt_s (not_lt.1 hx)
          · have : z ∈ (s :: rest).take (j + 1) := by
              rw [List.take_succ_cons]
              exact List.mem_cons_of_mem _ hz3
            exact htake z this

/-! ## Shape construction and mutation lemmas -/

theorem clamp_mem {v lo hi : ℤ} (h : lo ≤ hi) :
    lo ≤ clamp v lo hi ∧ clamp v lo hi ≤ hi := by
  unfold clamp
  omega

theorem jitterPoint_inBox {w h : ℤ} (hw : 0 < w) (hh : 0 < h) (sx sy : ℤ)
    (s : List ℕ) : inBox w h (jitterPoint w h sx sy s).1 := by
  unfold jitterPoint inBox
  constructor
  · exact (clamp_mem (by omega)).1
  refine ⟨(clamp_mem (by omega)).2, ?_, ?_⟩
  · exact (clamp_mem (by omega)).1
  · exact (clamp_mem (by omega)).2

theorem mkQuadraticBezier_xBound (w h : ℤ) (s : List ℕ) :
    (mkQuadraticBezier w h s).1.xBound = w :=
  rfl

theorem mkQuadraticBezier_yBound (w h : ℤ) (s : List ℕ) :
    (mkQuadraticBezier w h s).1.yBound = h :=
  rfl

theorem mkQuadraticBezier_controlPoints (w h : ℤ) (s : List ℕ) :
    ∃ p1 p2 p3 p4 : ℤ × ℤ,
      (mkQuadraticBezier w h s).1.controlPoints = [p1, p2, p3, p4] :=
  ⟨_, _, _, _, rfl⟩

theorem mkQuadraticBezier_inBox {w h : ℤ} (hw : 0 < w) (hh : 0 < h)
    (s : List ℕ) :
    ∀ p ∈ (mkQuadraticBezier w h s).1.controlPoints, inBox w h p := by
  intro p hp
  unfold mkQuadraticBezier at hp
  simp only [List.mem_cons, List.not_mem_nil, or_false] at hp
  rcases hp with hEq | hEq | hEq | hEq <;>
    (subst hEq; exact jitterPoint_inBox hw hh _ _ _)

theorem mutate_xBound (q : QuadraticBezier) (s : List ℕ) :
    (q.mutate s).1.xBound = q.xBound :=
  rfl

theorem mutate_yBound (q : QuadraticBezier) (s : List ℕ) :
    (q.mutate s).1.yBound = q.yBound :=
  rfl

theorem mutate_controlPoints (q : QuadraticBezier) (s : List ℕ) :
    (q.mutate s).1.controlPoints =
      q.controlPoints.set (q.mutateIndex s)
        (clamp ((q.controlPoints.getD (q.mutateIndex s) (0, 0)).1
            + (randomRange (-64) 64 s.tail).1) 0 (q.xBound - 1),
         clamp ((q.controlPoints.getD (q.mutateIndex s) (0, 0)).2
            + (randomRange (-64) 64 (randomRange (-64) 64 s.tail).2).1) 0
           (q.yBound - 1)) :=
  rfl

theorem mutate_length (q : QuadraticBezier) (s : List ℕ) :
    (q.mutate s).1.controlPoints.length = q.controlPoints.length := by
  rw [mutate_controlPoints, List.length_set]

theorem mutate_inBox (q : QuadraticBezier) (hw : 0 < q.xBound)
    (hh : 0 < q.yBound)
    (hinv : ∀ p ∈ q.controlPoints, inBox q.xBound q.yBound p) (s : List ℕ) :
    ∀ p ∈ (q.mutate s).1.controlPoints, inBox q.xBound q.yBound p := by
  intro p hp
  rw [mutate_controlPoints] at hp
  rcases List.mem_or_eq_of_mem_set hp with hmem | hEq
  · exact hinv p hmem
  · subst hEq
    unfold inBox
    constructor
    · exact (clamp_mem (by omega)).1
    refine ⟨(clamp_mem (by omega)).2, ?_, ?_⟩
    · exact (clamp_mem (by omega)).1
    · exact (clamp_mem (by omega)).2

theorem mutateSeq_xBound (q : QuadraticBezier) :
    ∀ ms : List (List ℕ), (mutateSeq q ms).xBound = q.xBound ∧
      (mutateSeq q ms).yBound = q.yBound := by
  intro ms
  induction ms generalizing q with
  | nil => exact ⟨rfl, rfl⟩
  | cons s rest ih =>
    have := ih (q.mutate s).1
    simpa [mutateSeq, mutate_xBound, mutate_yBound] using this

theorem mutateSeq_inBox (q : QuadraticBezier) (hw : 0 < q.xBound)
    (hh : 0 < q.yBound)
    (hinv : ∀ p ∈ q.controlPoints, inBox q.xBound q.yBound p) :
    ∀ ms : List (List ℕ),
      ∀ p ∈ (mutateSeq q ms).controlPoints, inBox q.xBound q.yBound p := by
  intro ms
  induction ms generalizing q with
  | nil => exact hinv
  | cons s rest ih =>
    intro p hp
    have hx := mutate_xBound q s
    have hy := mutate_yBound q s
    have hstep : ∀ r ∈ (q.mutate s).1.controlPoints,
        inBox (q.mutate s).1.xBound (q.mutate s).1.yBound r := by
      rw [hx, hy]
      exact mutate_inBox q hw hh hinv s
    have := ih (q.mutate s).1 (by rw [hx]; exact hw) (by rw [hy]; exact hh)
      hstep p hp
    rwa [hx, hy] at this

theorem flatMapPair_length :
    ∀ l : List (ℤ × ℤ), (l.flatMap (fun p => [p.1, p.2])).length = 2 * l.length
  | [] => rfl
  | p :: rest => by
    rw [List.flatMap_cons, List.length_append, flatMapPair_length rest]
    simp only [List.length_cons, List.length_nil]
    omega

theorem getRawShapeData_length (q : QuadraticBezier) :
    q.getRawShapeData.length = 2 * q.controlPoints.length :=
  flatMapPair_length q.controlPoints

/-! ## Model lemmas -/

theorem drawShape_target (m : Model) (sh : Shape) (alpha : ℤ) :
    (m.drawShape sh alpha).2.target = m.target :=
  rfl

theorem drawShape_current (m : Model) (sh : Shape) (alpha : ℤ) :
    (m.drawShape sh alpha).2.current
      = drawLines m.current (computeColor m.target m.current sh.rasterize alpha)
          sh.rasterize :=
  rfl

theorem drawShape_lastSq (m : Model) (sh : Shape) (alpha : ℤ) :
    (m.drawShape sh alpha).2.lastSq
      = max 0 (m.lastSq + deltaSq m.target m.current
          (m.drawShape sh alpha).2.current sh.rasterize) :=
  rfl

theorem drawShape_result_n (m : Model) (sh : Shape) (alpha : ℤ) :
    (m.drawShape sh alpha).1.n = sizeN m.target :=
  rfl

theorem drawShape_result_scoreSq (m : Model) (sh : Shape) (alpha : ℤ) :
    (m.drawShape sh alpha).1.scoreSq = (m.drawShape sh alpha).2.lastSq :=
  rfl

/-- The stored score after `drawShape` is exactly the spec's
`differencePartial(target, before, after, lastScore, lines)`: this justifies
keeping the squared accumulator instead of the square-rooted float. -/
theorem drawShape_lastScore_eq_differencePartial (m : Model) (sh : Shape)
    (alpha : ℤ) (hn : 0 < sizeN m.target) (hpos : 0 ≤ m.lastSq) :
    (m.drawShape sh alpha).2.lastScore
      = differencePartial m.target m.current (m.drawShape sh alpha).2.current
          m.lastScore sh.rasterize := by
  have hNr : (0 : ℝ) < ((sizeN m.target : ℤ) : ℝ) := by
    exact_mod_cast hn
  have hstep : (m.lastScore * 255) ^ 2 * ((sizeN m.target : ℤ) : ℝ)
      = ((m.lastSq : ℤ) : ℝ) := by
    unfold Model.lastScore scoreOfSq
    rw [div_mul_cancel₀ _ (by norm_num : (255 : ℝ) ≠ 0),
      Real.sq_sqrt (div_nonneg (by exact_mod_cast hpos) (le_of_lt hNr)),
      div_mul_cancel₀ _ (ne_of_gt hNr)]
  have hL : (m.drawShape sh alpha).2.lastScore
      = scoreOfSq (max 0 (m.lastSq + deltaSq m.target m.current
          (m.drawShape sh alpha).2.current sh.rasterize)) (sizeN m.target) := rfl
  unfold differencePartial
  rw [hstep, hL]
  unfold scoreOfSq
  congr 2
  push_cast
  ring

/-- Consistency of the squared accumulator through `drawShape`, when the
shape's scanlines cover each pixel at most once and stay inside the bitmap
rectangle. -/
theorem drawShape_consistent (m : Model) (sh : Shape) (alpha : ℤ)
    (hcons : m.lastSq = sumSq m.target m.current)
    (hnd : (coveredPixels sh.rasterize).Nodup)
    (hsub : ∀ p ∈ coveredPixels sh.rasterize, p ∈ m.target.grid) :
    (m.drawShape sh alpha).2.lastSq
      = sumSq (m.drawShape sh alpha).2.target (m.drawShape sh alpha).2.current := by
  have hagree : ∀ p : ℤ × ℤ, p ∉ coveredPixels sh.rasterize →
      (m.drawShape sh alpha).2.current.pixel p.1 p.2 = m.current.pixel p.1 p.2 := by
    intro p hnp
    rw [drawShape_current, drawLines_pixel _ _ _ _ _ hnd, if_neg ?_]
    intro hc
    exact hnp (by simpa using hc)
  have hupd := sumSq_update m.target m.current
      (m.drawShape sh alpha).2.current sh.rasterize hnd hsub hagree
  rw [drawShape_target, drawShape_lastSq, hcons, ← hupd]
  exact max_eq_right (sumSq_nonneg _ _)

theorem getHillClimbState_length (hw : ℕ) (worker : ℕ → State) :
    (getHillClimbState hw worker).length = max 1 hw := by
  unfold getHillClimbState
  rw [List.length_map, List.length_range]

theorem getD_set_ne (l : List (ℤ × ℤ)) (i j : ℕ) (v d : ℤ × ℤ) (h : j ≠ i) :
    (l.set i v).getD j d = l.getD j d := by
  rw [List.getD_eq_getElem?_getD, List.getD_eq_getElem?_getD,
    List.getElem?_set_ne (by omega)]

/-! ## Claims -/

/-- **C1** (amended).  After construction and after `reset` the stored last
score equals `differenceFull(target, current)` exactly; after a completed
`drawShape` the same holds — in particular to within the claimed `1e-6`
tolerance — provided the shape's scanlines cover each pixel at most once and
stay inside the bitmap rectangle.  The unrestricted claim is false: a shape
whose scanlines revisit a pixel makes `differencePartial` double-count the
removed contribution (see the counterexample). -/
theorem claim1_score_consistency (t : Bitmap) (bg : Rgba) (m : Model)
    (sh : Shape) (alpha : ℤ)
    (hcons : m.lastSq = sumSq m.target m.current)
    (hnd : (coveredPixels sh.rasterize).Nodup)
    (hsub : ∀ p ∈ coveredPixels sh.rasterize, p ∈ m.target.grid) :
    (mkModel t bg).lastScore
        = differenceFull (mkModel t bg).target (mkModel t bg).current ∧
      (m.reset bg).lastScore
        = differenceFull (m.reset bg).target (m.reset bg).current ∧
      (m.drawShape sh alpha).2.lastScore
        = differenceFull (m.drawShape sh alpha).2.target
            (m.drawShape sh alpha).2.current ∧
      |(m.drawShape sh alpha).2.lastScore
          - differenceFull (m.drawShape sh alpha).2.target
              (m.drawShape sh alpha).2.current| ≤ 1 / 1000000 := by
  have hdraw := drawShape_consistent m sh alpha hcons hnd hsub
  have h3 : (m.drawShape sh alpha).2.lastScore
      = differenceFull (m.drawShape sh alpha).2.target
          (m.drawShape sh alpha).2.current := by
    unfold Model.lastScore differenceFull
    rw [hdraw]
  refine ⟨rfl, rfl, h3, ?_⟩
  rw [h3, sub_self, abs_zero]
  norm_num

/-- Witness for C1: a concrete freshly built 1×1 model and a shape with
duplicate-free in-bounds coverage. -/
theorem claim1_score_consistency_witness :
    witModel.lastSq = sumSq witModel.target witModel.current ∧
      (coveredPixels witShape.rasterize).Nodup ∧
      (∀ p ∈ coveredPixels witShape.rasterize, p ∈ witModel.target.grid) ∧
      (witModel.drawShape witShape 255).2.lastScore
        = differenceFull (witModel.drawShape witShape 255).2.target
            (witModel.drawShape witShape 255).2.current :=
  ⟨by decide, by decide, by decide,
    (claim1_score_consistency cexTarget1 ⟨0, 0, 0, 255⟩ witModel witShape 255
      (by decide) (by decide) (by decide)).2.2.1⟩

/-- **C1** as stated is false on the code: after drawing `cexBezier1` —
whose four trimmed scanlines all cover the single pixel of a 1×1 model —
on a freshly constructed model, the stored last score is `0` while
`differenceFull(target, current)` is `sqrt(675/4)/255 ≈ 0.051`, so they
differ by far more than `1e-6`. -/
theorem claim1_score_consistency_counterexample :
    ¬ (|cexModel1'.lastScore
          - differenceFull cexModel1'.target cexModel1'.current| ≤ 1 / 1000000) := by
  intro habs
  have h1 : cexModel1'.lastSq = 0 := by decide
  have h3 : sizeN cexModel1'.target = 4 := by decide
  have h2 : sumSq cexModel1'.target cexModel1'.current = 675 := by decide
  have h4 : cexModel1'.lastScore = 0 := by
    unfold Model.lastScore
    rw [h1, h3, scoreOfSq_zero]
  have h5 : differenceFull cexModel1'.target cexModel1'.current
      = scoreOfSq 675 4 := by
    unfold differenceFull
    rw [h2, h3]
  rw [h4, h5, zero_sub, abs_neg, abs_of_nonneg (scoreOfSq_nonneg _ _)] at habs
  have h6 : (1 : ℝ) / 1000000 < scoreOfSq 675 4 := by
    unfold scoreOfSq
    rw [lt_div_iff (by norm_num : (0 : ℝ) < 255),
      show (1 : ℝ) / 1000000 * 255 = 255 / 1000000 by ring]
    refine (Real.lt_sqrt (by norm_num)).2 ?_
    push_cast
    norm_num
  linarith

/-- **C2** (amended).  The score of the returned `ShapeResult` is the score
obtained by actually drawing the selected minimum state's shape; it is
`≤ lastScore_before_step` provided that drawing does not increase the squared
error.  The optimizer does not guarantee that premise: every collected state
can score worse than the current canvas (see the counterexample), in which
case the step strictly increases the score. -/
theorem claim2_step_score (m : Model) (s : State) (rest : List State)
    (alpha : ℤ) (hn : 0 ≤ sizeN m.target)
    (hok : (m.drawShape (minElement s rest).shape alpha).1.scoreSq ≤ m.lastSq) :
    ∀ r ∈ (m.stepOnStates (s :: rest) alpha).1, r.score ≤ m.lastScore := by
  intro r hr
  have hr1 : r = (m.drawShape (minElement s rest).shape alpha).1 :=
    List.mem_singleton.1 hr
  subst hr1
  unfold ShapeResult.score Model.lastScore
  rw [drawShape_result_n]
  exact scoreOfSq_mono hok hn

/-- Witness for C2: a 1×1 model with black canvas and white target; drawing
the single-scanline shape at `alpha = 255` makes the canvas perfect, so the
premise and the conclusion hold. -/
theorem claim2_step_score_witness :
    (0 : ℤ) ≤ sizeN witModel.target ∧
      (witModel.drawShape (minElement witState []).shape 255).1.scoreSq
        ≤ witModel.lastSq ∧
      ∀ r ∈ (witModel.stepOnStates [witState] 255).1, r.score ≤ witModel.lastScore :=
  ⟨by decide, by decide, claim2_step_score witModel witState [] 255 (by decide) (by decide)⟩

/-- **C2** as stated is false on the code: on a 2×1 model whose canvas
already equals the target (last score `0`), a step whose only collected state
carries `cexBezier2` returns a `ShapeResult` with squared error `156060 > 0`,
i.e. a score strictly greater than the score before the step. -/
theorem claim2_step_score_counterexample :
    ¬ (∀ r ∈ (cexModel2.step 1 (fun _ => cexState2) 255).1,
        r.score ≤ cexModel2.lastScore) := by
  intro hall
  have hstep : (cexModel2.step 1 (fun _ => cexState2) 255).1
      = [(cexModel2.drawShape cexState2.shape 255).1] := rfl
  have hr := hall ((cexModel2.drawShape cexState2.shape 255).1)
    (by rw [hstep]; exact List.mem_singleton.2 rfl)
  have hsq : (cexModel2.drawShape cexState2.shape 255).1.scoreSq = 156060 := by decide
  have hN : (cexModel2.drawShape cexState2.shape 255).1.n = 8 := by decide
  have hlast : cexModel2.lastSq = 0 := by decide
  have hsize : sizeN cexModel2.target = 8 := by decide
  have hscore : (cexModel2.drawShape cexState2.shape 255).1.score
      = scoreOfSq 156060 8 := by
    unfold ShapeResult.score
    rw [hsq, hN]
  have hlast2 : cexModel2.lastScore = 0 := by
    unfold Model.lastScore
    rw [hlast, hsize, scoreOfSq_zero]
  rw [hscore, hlast2] at hr
  have hpos : 0 < scoreOfSq 156060 8 := scoreOfSq_pos (by norm_num) (by norm_num)
  linarith

/-- **C3** as stated is false on the code: `QuadraticBezier` stores four
control points, so `getRawShapeData` returns eight integers, not six. -/
theorem claim3_raw_data_counterexample :
    ((mkQuadraticBezier 10 10 []).1.getRawShapeData).length ≠ 6 := by
  decide

/-- **C3** (amended).  For every `QuadraticBezier`, `getRawShapeData`
returns exactly the eight signed 32-bit integers
`x1, y1, x2, y2, x3, y3, x4, y4`: the coordinate pairs of its four stored
control points, in storage order. -/
theorem claim3_raw_data (w h : ℤ) (s : List ℕ) :
    ∃ p1 p2 p3 p4 : ℤ × ℤ,
      (mkQuadraticBezier w h s).1.controlPoints = [p1, p2, p3, p4] ∧
      (mkQuadraticBezier w h s).1.getRawShapeData
        = [p1.1, p1.2, p2.1, p2.2, p3.1, p3.2, p4.1, p4.2] ∧
      ((mkQuadraticBezier w h s).1.getRawShapeData).length = 8 :=
  ⟨_, _, _, _, rfl, rfl, rfl⟩

/-- **C4**.  `std::min_element` with the `a.score < b.score` comparator
selects a member of minimum score; the selected state sits at an index all of
whose predecessors score strictly higher (first-collected tie-break); and
`step` applies exactly that state's shape via `drawShape`. -/
theorem claim4_min_selection (m : Model) (s : State) (rest : List State)
    (alpha : ℤ) :
    minElement s rest ∈ s :: rest ∧
      (∀ z ∈ s :: rest, (minElement s rest).score ≤ z.score) ∧
      (∃ i : ℕ, i < (s :: rest).length ∧
        (s :: rest).getD i dfltState = minElement s rest ∧
        ∀ z ∈ (s :: rest).take i, (minElement s rest).score < z.score) ∧
      m.stepOnStates (s :: rest) alpha
        = ([(m.drawShape (minElement s rest).shape alpha).1],
           (m.drawShape (minElement s rest).shape alpha).2) :=
  ⟨minElement_mem rest s, minElement_le rest s, minElement_first rest s, rfl⟩

/-- **C5**.  `QuadraticBezier::rasterize` returns scanlines each covering
exactly one pixel (`x1 = x2`), in bounds, and the set of covered pixels is
the union of the Bresenham segments between successive control points,
clipped to the bitmap rectangle by `Scanline::trim`. -/
theorem claim5_rasterize (q : QuadraticBezier)
    (h2 : 2 ≤ q.controlPoints.length) :
    (∀ L ∈ q.rasterize, L.x1 = L.x2 ∧ 0 ≤ L.y ∧ L.y < q.yBound ∧
        0 ≤ L.x1 ∧ L.x2 < q.xBound) ∧
      (coveredPixels q.rasterize).toFinset
        = ((controlPolygonPixels q.controlPoints).filter
            (fun p => decide (0 ≤ p.1 ∧ p.1 < q.xBound ∧ 0 ≤ p.2 ∧ p.2 < q.yBound))).toFinset := by
  have hall : ∀ L ∈ (segmentEndpoints q.controlPoints).flatMap (fun sg =>
      (bresenham sg.1.1 sg.1.2 sg.2.1 sg.2.2).map
        (fun pt => (⟨pt.2, pt.1, pt.1⟩ : Scanline))),
      L.x1 = L.x2 := by
    intro L hL
    simp only [List.mem_flatMap, List.mem_map] at hL
    obtain ⟨sg, _, pt, _, hLpt⟩ := hL
    rw [← hLpt]
  have hraw : ∀ p : ℤ × ℤ,
      p ∈ coveredPixels ((segmentEndpoints q.controlPoints).flatMap (fun sg =>
          (bresenham sg.1.1 sg.1.2 sg.2.1 sg.2.2).map
            (fun pt => (⟨pt.2, pt.1, pt.1⟩ : Scanline))))
        ↔ ∃ sg ∈ segmentEndpoints q.controlPoints,
            p ∈ bresenham sg.1.1 sg.1.2 sg.2.1 sg.2.2 := by
    intro p
    unfold coveredPixels
    simp only [List.mem_flatMap, List.mem_map]
    constructor
    · rintro ⟨L, ⟨sg, hsg, pt, hpt, hLpt⟩, hpL⟩
      rw [← hLpt, Scanline.pixels_single] at hpL
      have hp : p = (pt.1, pt.2) := by simpa using hpL
      rw [hp, Prod.mk.eta]
      exact ⟨sg, hsg, hpt⟩
    · rintro ⟨sg, hsg, hp⟩
      refine ⟨⟨p.2, p.1, p.1⟩, ⟨sg, hsg, p, hp, rfl⟩, ?_⟩
      rw [Scanline.pixels_single]
      simp
  constructor
  · intro L hL
    exact Scanline.trim_bounds hall hL
  · ext p
    simp only [List.mem_toFinset, List.mem_filter, decide_eq_true_eq]
    unfold QuadraticBezier.rasterize
    rw [mem_coveredPixels_trim, hraw p,
      mem_segments_iff_mem_zip q.controlPoints h2 p]
    unfold controlPolygonPixels
    simp only [List.mem_flatMap]

/-- Witness for C5 at a concrete four-point bezier over a 2×1 model. -/
theorem claim5_rasterize_witness :
    2 ≤ cexBezier2.controlPoints.length ∧
      (coveredPixels cexBezier2.rasterize).toFinset
        = ((controlPolygonPixels cexBezier2.controlPoints).filter
            (fun p => decide (0 ≤ p.1 ∧ p.1 < cexBezier2.xBound ∧ 0 ≤ p.2 ∧
              p.2 < cexBezier2.yBound))).toFinset :=
  ⟨by decide, (claim5_rasterize cexBezier2 (by decide)).2⟩

/-- **C6** — code bug.  The constructor draws the primary x coordinate with
`randomRange(0, xBound)`, a closed range, so it can equal the width (outside
the claimed half-open `[0, w)`); the y coordinate is drawn from
`[0, h-1] = [0, h)` as claimed.  At `w = h = 10`, a raw draw of `10` makes
the primary point `(10, 0)`. -/
theorem claim6_primary_point_eval :
    (∀ s : List ℕ, 0 ≤ (primaryPoint 10 10 s).1.1 ∧
        (primaryPoint 10 10 s).1.1 ≤ 10 ∧
        0 ≤ (primaryPoint 10 10 s).1.2 ∧ (primaryPoint 10 10 s).1.2 < 10) ∧
      (primaryPoint 10 10 [10]).1.1 = 10 ∧
      ¬ ((primaryPoint 10 10 [10]).1.1 < 10) := by
  refine ⟨?_, by decide, by decide⟩
  intro s
  unfold primaryPoint randomRange
  simp only
  omega

/-- **C7**.  After random construction over a `w × h` model with positive
bounds and after any sequence of mutations, every stored control point lies
in `[0, w-1] × [0, h-1]`. -/
theorem claim7_clamp_closure (w h : ℤ) (hw : 0 < w) (hh : 0 < h)
    (s : List ℕ) (ms : List (List ℕ)) :
    ∀ p ∈ (mutateSeq (mkQuadraticBezier w h s).1 ms).controlPoints,
      0 ≤ p.1 ∧ p.1 ≤ w - 1 ∧ 0 ≤ p.2 ∧ p.2 ≤ h - 1 := by
  intro p hp
  have hq : ∀ r ∈ (mkQuadraticBezier w h s).1.controlPoints,
      inBox (mkQuadraticBezier w h s).1.xBound (mkQuadraticBezier w h s).1.yBound r := by
    rw [mkQuadraticBezier_xBound, mkQuadraticBezier_yBound]
    exact mkQuadraticBezier_inBox hw hh s
  have hbox := mutateSeq_inBox (mkQuadraticBezier w h s).1
    (by rw [mkQuadraticBezier_xBound]; exact hw)
    (by rw [mkQuadraticBezier_yBound]; exact hh) hq ms p hp
  rw [mkQuadraticBezier_xBound, mkQuadraticBezier_yBound] at hbox
  exact hbox

/-- Witness for C7 at concrete bounds, construction draws, and one mutation. -/
theorem claim7_clamp_closure_witness :
    (0 : ℤ) < 5 ∧ (0 : ℤ) < 5 ∧
      ∀ p ∈ (mutateSeq (mkQuadraticBezier 5 5 []).1 [[1, 2, 3]]).controlPoints,
        0 ≤ p.1 ∧ p.1 ≤ 5 - 1 ∧ 0 ≤ p.2 ∧ p.2 ≤ 5 - 1 :=
  ⟨by norm_num, by norm_num,
    claim7_clamp_closure 5 5 (by norm_num) (by norm_num) [] [[1, 2, 3]]⟩

/-- **C8**.  `mutate` touches exactly one control point — the one at an
index drawn by a single `randomRange(0, size-1)` call, every index being
reachable — leaving all others, the type tag, and the length of
`getRawShapeData` unchanged. -/
theorem claim8_mutation (q : QuadraticBezier) (s : List ℕ)
    (hq : 0 < q.controlPoints.length) :
    ∃ i : ℕ, i < q.controlPoints.length ∧
      (q.mutate s).1.controlPoints.length = q.controlPoints.length ∧
      (∀ j : ℕ, j ≠ i →
        (q.mutate s).1.controlPoints.getD j (0, 0)
          = q.controlPoints.getD j (0, 0)) ∧
      (q.mutate s).1.getType = q.getType ∧
      ((q.mutate s).1.getRawShapeData).length = q.getRawShapeData.length ∧
      (∀ k : ℕ, k < q.controlPoints.length → ∃ s2 : List ℕ, q.mutateIndex s2 = k) := by
  refine ⟨q.mutateIndex s, ?_, mutate_length q s, ?_, rfl, ?_, ?_⟩
  · unfold QuadraticBezier.mutateIndex randomRange
    simp only
    have h1 : 0 ≤ ((s.headD 0 : ℕ) : ℤ) % ((q.controlPoints.length : ℤ) - 1 - 0 + 1) :=
      Int.emod_nonneg _ (by omega)
    have h2 : ((s.headD 0 : ℕ) : ℤ) % ((q.controlPoints.length : ℤ) - 1 - 0 + 1)
        < (q.controlPoints.length : ℤ) - 1 - 0 + 1 :=
      Int.emod_lt_of_pos _ (by omega)
    omega
  · intro j hj
    rw [mutate_controlPoints]
    exact getD_set_ne _ _ _ _ _ hj
  · rw [getRawShapeData_length, getRawShapeData_length, mutate_length]
  · intro k hk
    refine ⟨[k], ?_⟩
    unfold QuadraticBezier.mutateIndex randomRange
    simp only [List.headD]
    have h1 : ((k : ℕ) : ℤ) % ((q.controlPoints.length : ℤ) - 1 - 0 + 1) = ((k : ℕ) : ℤ) :=
      Int.emod_eq_of_lt (by omega) (by omega)
    omega

/-- Witness for C8 at a concrete four-point bezier. -/
theorem claim8_mutation_witness :
    0 < cexBezier2.controlPoints.length ∧
      ∃ i : ℕ, i < cexBezier2.controlPoints.length ∧
        (cexBezier2.mutate [2, 5, 7]).1.controlPoints.length
          = cexBezier2.controlPoints.length ∧
        (∀ j : ℕ, j ≠ i →
          (cexBezier2.mutate [2, 5, 7]).1.controlPoints.getD j (0, 0)
            = cexBezier2.controlPoints.getD j (0, 0)) ∧
        (cexBezier2.mutate [2, 5, 7]).1.getType = cexBezier2.getType ∧
        ((cexBezier2.mutate [2, 5, 7]).1.getRawShapeData).length
          = cexBezier2.getRawShapeData.length ∧
        (∀ k : ℕ, k < cexBezier2.controlPoints.length →
          ∃ s2 : List ℕ, cexBezier2.mutateIndex s2 = k) :=
  ⟨by decide, claim8_mutation cexBezier2 [2, 5, 7] (by decide)⟩

/-- **C9** — code bug.  The point-emitting loop of `getSvgShapeData` is
commented out in the source, so the element's `d` attribute is empty: every
`QuadraticBezier` emits the same string `<path d="" SVG_STYLE_HOOK />`,
never the claimed `<path d="M x1 y1 Q cx cy x2 y2" SVG_STYLE_HOOK />`
(the output does not depend on the control points at all).  The
`SVG_STYLE_HOOK` token does occur exactly once. -/
theorem claim9_svg_eval :
    (∀ q : QuadraticBezier, q.getSvgShapeData = "<path d=\"\" SVG_STYLE_HOOK />") ∧
      cexBezier2.getSvgShapeData = "<path d=\"\" SVG_STYLE_HOOK />" ∧
      (∀ q1 q2 : QuadraticBezier, q1.getSvgShapeData = q2.getSvgShapeData) :=
  ⟨fun _ => rfl, rfl, fun _ _ => rfl⟩

/-- **C10**.  `getHillClimbState` collects `max(1, hardware_concurrency)`
states — hence at least one — so the `min_element` selection in `step` never
faces an empty range and `step` returns exactly one `ShapeResult`. -/
theorem claim10_worker_count (m : Model) (hw : ℕ) (worker : ℕ → State)
    (alpha : ℤ) :
    (getHillClimbState hw worker).length = max 1 hw ∧
      1 ≤ (getHillClimbState hw worker).length ∧
      ((m.step hw worker alpha).1).length = 1 := by
  refine ⟨getHillClimbState_length hw worker, ?_, ?_⟩
  · rw [getHillClimbState_length]
    exact le_max_left _ _
  · unfold Model.step
    rcases hlist : getHillClimbState hw worker with _ | ⟨s, rest⟩
    · exfalso
      have hlen := getHillClimbState_length hw worker
      rw [hlist] at hlen
      simp only [List.length_nil] at hlen
      omega
    · rfl

end Geometrize
